import Mathlib

/-!
Verification of the version-string core of the `3h-version` package
(`src/lib.js`): the functions `check`, `parse`, `increase` and
`getHeadingLevelFromVersion` of the exported `Version` object.

Modelling conventions.
JavaScript number values reachable in this library are `NaN`, `Infinity`,
or non-negative integers: every numeric value is produced by coercing a
word-character string (which never yields a negative value) or by
incrementing such a value.  The model therefore represents numbers by the
inductive `JSNum` below, with the integer case carried as a `Nat` and
with exact (arbitrary-precision) integer arithmetic.  This is faithful to
float64 exactly on the integers below 2^53: there string-to-number
conversion is exact (the exact value is representable and IEEE-754
conversion is correctly rounded), `x + 1` is exact, and `String(x)` is
the plain decimal numeral (exponential notation starts only at 1e21).
At or above 2^53 the source rounds, saturates to `Infinity`, and renders
exponentially, none of which the model reproduces; every theorem about
bump arithmetic therefore carries the `safeTriple` guard restricting the
coerced components to the exact regime.  Array slots hold numbers,
strings or `undefined`,
modelled by `JSVal`; arrays are Lean lists of `JSVal`.  Fallible code
(`increase` dereferences the result of `parse`, which can be `null`)
returns an `Option`, with `none` standing for the thrown `TypeError`.
-/

namespace Version

/-- Word characters of the regular expression class `\w`:
ASCII letters, decimal digits and the underscore. -/
def isWordChar (c : Char) : Bool :=
  c.isAlpha || c.isDigit || c = '_'

/-- Matcher for the optional tail `(?:-(?:alpha|beta|gamma))?$` of the
validation regular expression in `check`. -/
def matchTag (cs : List Char) : Bool :=
  cs = [] || cs = "-alpha".data || cs = "-beta".data || cs = "-gamma".data

/-- Matcher for `(?:\.\w+){0,2}` followed by the optional tag and the end
anchor.  The separators `.` and `-` are not word characters and `\d` is a
subset of `\w`, so greedy matching of the regular expression is
deterministic and this function computes it exactly. -/
def matchComps : Nat → List Char → Bool
  | 0, cs => matchTag cs
  | k + 1, cs =>
    match cs with
    | [] => matchTag []
    | c :: rest =>
      if c = '.' then
        !(rest.takeWhile isWordChar).isEmpty && matchComps k (rest.dropWhile isWordChar)
      else matchTag (c :: rest)

/-- Translation of `Version.check`: full-string match of
`/^\d+(?:\.\w+){0,2}(?:-(?:alpha|beta|gamma))?$/`. -/
def check (str : String) : Bool :=
  !(str.data.takeWhile Char.isDigit).isEmpty &&
    matchComps 2 (str.data.dropWhile Char.isDigit)

/-- JavaScript `String.prototype.split` with a single-character separator,
on the character list: every occurrence of the separator starts a new
group, and the result is always non-empty. -/
def splitChar (sep : Char) : List Char → List (List Char)
  | [] => [[]]
  | c :: cs =>
    match splitChar sep cs with
    | [] => [[]]
    | g :: gs => if c = sep then [] :: g :: gs else (c :: g) :: gs

/-- JavaScript `s.split(sep)` for a one-character separator. -/
def jsSplit (sep : Char) (s : String) : List String :=
  (splitChar sep s.data).map String.mk

/-- Number values reachable in this library: `NaN`, `Infinity`, or a
non-negative integer (see the module docstring). -/
inductive JSNum where
  | nan : JSNum
  | inf : JSNum
  | int : Nat → JSNum
deriving DecidableEq, Repr

/-- Array-slot values: `undefined`, a number, or a string. -/
inductive JSVal where
  | undefined : JSVal
  | num : JSNum → JSVal
  | str : String → JSVal
deriving DecidableEq, Repr

/-- The test `x > 0` of JavaScript on a number: false for `NaN`. -/
def JSNum.gtZero : JSNum → Bool
  | .nan => false
  | .inf => true
  | .int n => 0 < n

/-- JavaScript `x + 1` on a number: exact successor, which agrees with
the float64 addition of the source for `NaN`, `Infinity` and integers
below 2^53 (the regime enforced by `safeTriple` in the bump theorems);
at 2^53 and above float64 addition of 1 rounds and is not modelled. -/
def JSNum.inc : JSNum → JSNum
  | .nan => .nan
  | .inf => .inf
  | .int n => .int (n + 1)

/-- Decimal digit characters of a natural number, most significant first,
with the first argument as recursion fuel (any fuel at least the number
itself suffices, and the empty list is returned for zero). -/
def natToCharsAux : Nat → Nat → List Char
  | 0, _ => []
  | _ + 1, 0 => []
  | fuel + 1, n => natToCharsAux fuel (n / 10) ++ [Nat.digitChar (n % 10)]

/-- Decimal representation of a natural number, as JavaScript
`Number.prototype.toString` renders a non-negative integer. -/
def natToChars (n : Nat) : List Char :=
  if n = 0 then ['0'] else natToCharsAux n n

/-- JavaScript `String(x)` for a number of this library: `NaN`,
`Infinity`, or the plain decimal numeral.  This agrees with the source
for integers up to 2^53, where the decimal digits are the shortest
round-tripping representation; JavaScript switches to exponential
notation at 1e21 and prints shortest round-trip digits for larger
doubles, which is not modelled and is excluded by `safeTriple`. -/
def JSNum.render : JSNum → String
  | .nan => "NaN"
  | .inf => "Infinity"
  | .int n => ⟨natToChars n⟩

/-- Value of a list of decimal digit characters, most significant first. -/
def decValue (cs : List Char) : Nat :=
  cs.foldl (fun a c => 10 * a + (c.toNat - 48)) 0

/-- Value of a hexadecimal digit character, if it is one. -/
def hexDigitVal (c : Char) : Option Nat :=
  if '0' ≤ c ∧ c ≤ '9' then some (c.toNat - 48)
  else if 'a' ≤ c ∧ c ≤ 'f' then some (c.toNat - 87)
  else if 'A' ≤ c ∧ c ≤ 'F' then some (c.toNat - 55)
  else none

/-- Value of an octal digit character, if it is one. -/
def octDigitVal (c : Char) : Option Nat :=
  if '0' ≤ c ∧ c ≤ '7' then some (c.toNat - 48) else none

/-- Value of a binary digit character, if it is one. -/
def binDigitVal (c : Char) : Option Nat :=
  if c = '0' then some 0 else if c = '1' then some 1 else none

/-- Value of a digit string in a given radix, or `none` when some
character is not a digit of that radix. -/
def radixValue (r : Nat) (dv : Char → Option Nat) (cs : List Char) : Option Nat :=
  cs.foldl
    (fun acc c =>
      match acc, dv c with
      | some a, some d => some (r * a + d)
      | _, _ => none)
    (some 0)

/-- Radix-prefixed integer literal of the `ToNumber` string grammar:
empty or malformed digit sequences give `NaN`. -/
def radixNum (r : Nat) (dv : Char → Option Nat) (cs : List Char) : JSNum :=
  if cs = [] then .nan
  else
    match radixValue r dv cs with
    | some v => .int v
    | none => .nan

/-- Decimal literal, optionally with an `e`/`E` exponent part, of the
`ToNumber` string grammar restricted to word characters: sign characters
and the decimal point are not word characters, so the value is
`digits * 10 ^ exponent`, computed exactly.  The source rounds this
value to the nearest float64 (overflowing huge literals to `Infinity`);
exact and rounded values coincide exactly when the exact value is below
2^53, the regime the `safeTriple` guard restricts to. -/
def decimalExpValue (cs : List Char) : JSNum :=
  let ds := cs.takeWhile Char.isDigit
  let rest := cs.dropWhile Char.isDigit
  if ds.isEmpty then .nan
  else
    match rest with
    | [] => .int (decValue ds)
    | e :: es =>
      if (e = 'e' ∨ e = 'E') ∧ es ≠ [] ∧ es.all Char.isDigit then
        .int (decValue ds * 10 ^ decValue es)
      else .nan

/-- JavaScript `ToNumber` on the strings this library coerces: the empty
string and strings of word characters.  The cases are the literal
`Infinity`, radix-prefixed integers (`0x…`, `0o…`, `0b…`), and decimal
literals with an optional exponent; everything else is `NaN`.  Values
are computed exactly and agree with the float64 values of the source
whenever they lie below 2^53 (see `decimalExpValue`); the classification
into `NaN` versus number follows the same grammar in both. -/
def jsWordToNumber (s : String) : JSNum :=
  match s.data with
  | [] => .int 0
  | c :: cs =>
    if c :: cs = "Infinity".data then .inf
    else if c = '0' then
      match cs with
      | c2 :: rest =>
        if c2 = 'x' ∨ c2 = 'X' then radixNum 16 hexDigitVal rest
        else if c2 = 'o' ∨ c2 = 'O' then radixNum 8 octDigitVal rest
        else if c2 = 'b' ∨ c2 = 'B' then radixNum 2 binDigitVal rest
        else decimalExpValue (c :: cs)
      | [] => decimalExpValue (c :: cs)
    else decimalExpValue (c :: cs)

/-- The component coercion `n => (n - 0) > 0 ? (n - 0) : 0` of `parse`. -/
def numFromText (s : String) : JSNum :=
  let v := jsWordToNumber s
  if v.gtZero then v else .int 0

/-- JavaScript `ToNumber` on an array slot, as used by `ans[i]++`. -/
def JSVal.toNumber : JSVal → JSNum
  | .undefined => .nan
  | .num n => n
  | .str s => jsWordToNumber s

/-- JavaScript `String(x)` on an array slot as `Array.prototype.join`
renders it: `undefined` renders as the empty string. -/
def JSVal.render : JSVal → String
  | .undefined => ""
  | .num n => n.render
  | .str s => s

/-- JavaScript `ans.join(".")`. -/
def joinDot : List JSVal → String
  | [] => ""
  | [v] => v.render
  | v :: rest => v.render ++ "." ++ joinDot rest

/-- JavaScript array read `l[i]`: `undefined` beyond the length. -/
def getIdx (l : List JSVal) (i : Nat) : JSVal :=
  l.getD i .undefined

/-- JavaScript array write `l[i] = v`, extending the array with holes
(which read and join as `undefined`) when `i` is beyond the length. -/
def setIdx (l : List JSVal) (i : Nat) (v : JSVal) : List JSVal :=
  if i < l.length then l.set i v
  else l ++ List.replicate (i - l.length) .undefined ++ [v]

/-- JavaScript `l[i]++`: stores `ToNumber(l[i]) + 1` at index `i`. -/
def incIdx (l : List JSVal) (i : Nat) : List JSVal :=
  setIdx l i (.num (getIdx l i).toNumber.inc)

/-- Translation of `Version.parse`: `null` when `check` fails, otherwise
the numeric components (coerced with `numFromText`) with the tag string
appended as the last element. -/
def parse (str : String) : Option (List JSVal) :=
  if check str then
    let parts := jsSplit '-' str
    let digitals := parts.headD ""
    let tag := parts.getD 1 ""
    some ((jsSplit '.' digitals).map (fun n => JSVal.num (numFromText n)) ++ [JSVal.str tag])
  else none

/-- Translation of `Version.increase`: takes the first three slots of the
parse result, bumps them according to `level` (any other level is a
fall-through no-op), and joins with `.`; `none` models the `TypeError`
thrown by `null.slice` when `parse` returned `null`. -/
def increase (ver level : String) : Option String :=
  match parse ver with
  | none => none
  | some arr =>
    let ans := arr.take 3
    let ans :=
      match level with
      | "patch" => incIdx ans 2
      | "minor" => setIdx (incIdx ans 1) 2 (.num (.int 0))
      | "major" => setIdx (setIdx (incIdx ans 0) 1 (.num (.int 0))) 2 (.num (.int 0))
      | _ => ans
    some (joinDot ans)

/-- JavaScript strict equality `v === 0` on an array slot. -/
def strictEqZero : JSVal → Bool
  | .num (.int n) => n == 0
  | _ => false

/-- Translation of `Version.getHeadingLevelFromVersion`. -/
def getHeadingLevelFromVersion (version : String) : Nat :=
  match parse version with
  | some versions =>
    if strictEqZero (getIdx versions 2) then
      if strictEqZero (getIdx versions 1) then 1 else 2
    else 3
  | none => 0

/-! Specification-side definitions, following the wording of the
specification rather than the code: the grammar of a version string as a
decomposition into a major component, up to two further components and an
optional tag, and the numeric triple of a version. -/

/-- Text of the dot-separated component list: each component is preceded
by a `.`. -/
def compsText : List String → String
  | [] => ""
  | c :: rest => "." ++ c ++ compsText rest

/-- Text of the optional tag: empty, or `-` followed by the tag word. -/
def tagText (tag : String) : String :=
  if tag = "" then "" else "-" ++ tag

/-- Version string assembled from a decomposition. -/
def verStr (maj : String) (comps : List String) (tag : String) : String :=
  maj ++ compsText comps ++ tagText tag

/-- The major component consists of one or more decimal digits. -/
def MajOk (m : String) : Prop :=
  m.data ≠ [] ∧ m.data.all Char.isDigit = true

/-- A minor or patch component consists of one or more word characters. -/
def CompOk (c : String) : Prop :=
  c.data ≠ [] ∧ c.data.all isWordChar = true

/-- The tag is absent or exactly one of the three literals. -/
def TagOk (tag : String) : Prop :=
  tag = "" ∨ tag = "alpha" ∨ tag = "beta" ∨ tag = "gamma"

/-- The grammar of section 3 of the specification: a digits-only major
component, optionally one or two further `.`-separated components each of
one or more word characters, and optionally a trailing `-` followed by
exactly one of `alpha`, `beta`, `gamma`. -/
def SpecGrammar (s : String) : Prop :=
  ∃ maj comps tag, MajOk maj ∧ comps.length ≤ 2 ∧ (∀ c ∈ comps, CompOk c) ∧
    TagOk tag ∧ s = verStr maj comps tag

/-- Number of `.`-separated components of the numeric portion of a
version string (before the first `-`). -/
def numComps (s : String) : Nat :=
  (jsSplit '.' ((jsSplit '-' s).headD "")).length

/-- Tag portion of a version string: the text after the first `-`, or the
empty string when there is none. -/
def verTag (s : String) : String :=
  (jsSplit '-' s).getD 1 ""

/-- Numeric triple of a valid version string: the coerced components of
the numeric portion, missing minor and patch components defaulting to
zero; `none` for an invalid string. -/
def verTriple (s : String) : Option (JSNum × JSNum × JSNum) :=
  if check s then
    let comps := (jsSplit '.' ((jsSplit '-' s).headD "")).map numFromText
    some (comps.getD 0 (.int 0), comps.getD 1 (.int 0), comps.getD 2 (.int 0))
  else none

/-- Numbers on which the exact model provably coincides with the float64
arithmetic of the source: `NaN`, `Infinity`, and integers below 2^53. -/
def safeNum : JSNum → Bool
  | .int n => n < 2 ^ 53
  | _ => true

/-- Guard for the bump theorems: the version is valid and every coerced
numeric component of its triple is `NaN`-coerced, `Infinity`, or an
integer below 2^53.  Inside this regime string-to-number conversion,
adding 1 and rendering are exact in float64, so the model computes
exactly what the source computes; every input on which the exact model
and float64 diverge is excluded, because a divergent coercion has exact
value at least 2^53. -/
def safeTriple (s : String) : Bool :=
  match verTriple s with
  | some (a, b, c) => safeNum a && safeNum b && safeNum c
  | none => false

/-- The bump of a numeric triple claimed for `increase`: `patch`
increments the patch field, `minor` increments the minor field and resets
patch, `major` increments the major field and resets minor and patch; any
other level leaves the triple unchanged. -/
def bumpTriple : JSNum × JSNum × JSNum → String → JSNum × JSNum × JSNum
  | (a, b, c), "patch" => (a, b, c.inc)
  | (a, b, _), "minor" => (a, b.inc, .int 0)
  | (a, _, _), "major" => (a.inc, .int 0, .int 0)
  | t, _ => t

/-- The three numeric fields joined with `.`. -/
def renderTriple : JSNum × JSNum × JSNum → String
  | (a, b, c) => a.render ++ "." ++ b.render ++ "." ++ c.render

/-- JavaScript `<` on two numbers of this library: false whenever a
`NaN` is involved, and `Infinity` is above every integer. -/
def jsLt : JSNum → JSNum → Bool
  | .nan, _ => false
  | _, .nan => false
  | .inf, _ => false
  | .int _, .inf => true
  | .int a, .int b => a < b

/-- Strict lexicographic order on numeric triples. -/
def lexLt : JSNum × JSNum × JSNum → JSNum × JSNum × JSNum → Bool
  | (a, b, c), (x, y, z) =>
    jsLt a x || (decide (a = x) && (jsLt b y || (decide (b = y) && jsLt c z)))

/-- Heading level that `getHeadingLevelFromVersion` actually computes:
the sentinel `0` for an invalid string; for a version whose numeric
portion has all three components, 1 when patch and minor are both zero,
2 when patch is zero and minor is not, and 3 when patch is non-zero; and
3 for every valid version with fewer than three components, because the
strict-equality test against the absent patch slot fails. -/
def headingSpec (s : String) : Nat :=
  match verTriple s with
  | none => 0
  | some (_, b, c) =>
    if numComps s = 3 then
      if c = .int 0 then (if b = .int 0 then 1 else 2) else 3
    else 3

/-! Helper lemmas: characters, `takeWhile` and `dropWhile`, `splitChar`. -/

theorem takeWhile_all_append (p : Char → Bool) (xs ys : List Char)
    (hx : xs.all p = true) (hy : ∀ y, ys.head? = some y → p y = false) :
    (xs ++ ys).takeWhile p = xs ∧ (xs ++ ys).dropWhile p = ys := by
  induction xs with
  | nil =>
    simp only [List.nil_append]
    cases ys with
    | nil => exact ⟨rfl, rfl⟩
    | cons y t =>
      have h := hy y rfl
      simp [List.takeWhile_cons, List.dropWhile_cons, h]
  | cons x xs ih =>
    simp only [List.all_cons, Bool.and_eq_true] at hx
    have h := ih hx.2
    simp [List.takeWhile_cons, List.dropWhile_cons, hx.1, h.1, h.2]

theorem takeWhile_of_all {p : Char → Bool} {xs : List Char} (hx : xs.all p = true) :
    xs.takeWhile p = xs ∧ xs.dropWhile p = [] := by
  have h := takeWhile_all_append p xs [] hx (by intro y hy; simp at hy)
  simpa using h

theorem not_mem_of_all {p : Char → Bool} {cs : List Char} {sep : Char}
    (h : cs.all p = true) (hp : p sep = false) : sep ∉ cs := by
  intro hmem
  rw [List.all_eq_true] at h
  have := h sep hmem
  rw [hp] at this
  exact Bool.false_ne_true this

theorem splitChar_ne_nil (sep : Char) (cs : List Char) : splitChar sep cs ≠ [] := by
  cases cs with
  | nil => simp [splitChar]
  | cons c cs =>
    rw [splitChar]
    cases h : splitChar sep cs with
    | nil => simp
    | cons g gs =>
      by_cases hc : c = sep <;> simp [hc]

theorem splitChar_no_sep {sep : Char} {cs : List Char} (h : sep ∉ cs) :
    splitChar sep cs = [cs] := by
  induction cs with
  | nil => rfl
  | cons c cs ih =>
    simp only [List.mem_cons, not_or] at h
    rw [splitChar, ih h.2]
    have hc : ¬(c = sep) := fun hc => h.1 hc.symm
    simp [hc]

theorem splitChar_append {sep : Char} {xs ys : List Char} (h : sep ∉ xs) :
    splitChar sep (xs ++ sep :: ys) = xs :: splitChar sep ys := by
  induction xs with
  | nil =>
    simp only [List.nil_append]
    rw [splitChar]
    cases hsp : splitChar sep ys with
    | nil => exact absurd hsp (splitChar_ne_nil sep ys)
    | cons g gs => simp
  | cons x xs ih =>
    simp only [List.mem_cons, not_or] at h
    have hx : ¬(x = sep) := fun hc => h.1 hc.symm
    rw [List.cons_append, splitChar, ih h.2]
    simp [hx]

/-! Helper lemmas: the tag and component matchers. -/

theorem matchTag_iff {cs : List Char} : matchTag cs = true ↔
    cs = [] ∨ cs = "-alpha".data ∨ cs = "-beta".data ∨ cs = "-gamma".data := by
  simp [matchTag, or_assoc]

theorem matchTag_head {cs : List Char} (h : matchTag cs = true) :
    ∀ y, cs.head? = some y → y = '-' := by
  intro y hy
  rcases matchTag_iff.1 h with h1 | h1 | h1 | h1 <;> subst h1
  · exact Option.noConfusion hy
  all_goals exact (Option.some.inj hy).symm

theorem all_takeWhile (p : Char → Bool) (l : List Char) : (l.takeWhile p).all p = true := by
  induction l with
  | nil => rfl
  | cons x xs ih =>
    rw [List.takeWhile_cons]
    by_cases h : p x <;> simp [h, ih]

theorem head_comps_tag {comps : List (List Char)} {t : List Char} (ht : matchTag t = true) :
    ∀ y, ((comps.map (fun c => '.' :: c)).flatten ++ t).head? = some y → y = '.' ∨ y = '-' := by
  intro y hy
  cases comps with
  | nil =>
    simp only [List.map_nil, List.flatten, List.nil_append] at hy
    exact Or.inr (matchTag_head ht y hy)
  | cons c cs =>
    simp only [List.map_cons, List.flatten_cons, List.cons_append, List.head?_cons] at hy
    exact Or.inl (Option.some.inj hy).symm

theorem matchComps_tag {cs : List Char} (h : matchTag cs = true) (k : Nat) :
    matchComps k cs = true := by
  cases k with
  | zero => exact h
  | succ k =>
    cases cs with
    | nil => exact h
    | cons c rest =>
      have hc : c = '-' := matchTag_head h c rfl
      have hne : ¬(c = '.') := by rw [hc]; decide
      rw [matchComps]
      simp [hne, h]

theorem matchComps_complete : ∀ (comps : List (List Char)) (k : Nat) (t : List Char),
    comps.length ≤ k → (∀ c ∈ comps, c ≠ [] ∧ c.all isWordChar = true) →
    matchTag t = true →
    matchComps k ((comps.map (fun c => '.' :: c)).flatten ++ t) = true := by
  intro comps
  induction comps with
  | nil =>
    intro k t _ _ ht
    simpa using matchComps_tag ht k
  | cons c cs ih =>
    intro k t hlen hc ht
    cases k with
    | zero => simp at hlen
    | succ k =>
      have hcc := hc c (List.mem_cons_self c cs)
      have hy : ∀ y, ((cs.map (fun c => '.' :: c)).flatten ++ t).head? = some y →
          isWordChar y = false := by
        intro y hy
        rcases head_comps_tag ht y hy with h | h <;> rw [h] <;> decide
      have hW := takeWhile_all_append isWordChar c
        ((cs.map (fun c => '.' :: c)).flatten ++ t) hcc.2 hy
      have hshape : (((c :: cs).map (fun c => '.' :: c)).flatten ++ t)
          = '.' :: (c ++ ((cs.map (fun c => '.' :: c)).flatten ++ t)) := by
        simp
      rw [hshape, matchComps]
      rw [if_pos rfl, hW.1, hW.2, Bool.and_eq_true]
      constructor
      · simp [List.isEmpty_iff, hcc.1]
      · exact ih k t (Nat.le_of_succ_le_succ hlen) (fun x hx => hc x (List.mem_cons_of_mem c hx)) ht

theorem matchComps_sound : ∀ (k : Nat) (cs : List Char), matchComps k cs = true →
    ∃ (comps : List (List Char)) (t : List Char), comps.length ≤ k ∧ (∀ c ∈ comps, c ≠ [] ∧ c.all isWordChar = true) ∧
      matchTag t = true ∧ cs = (comps.map (fun c => '.' :: c)).flatten ++ t := by
  intro k
  induction k with
  | zero =>
    intro cs h
    exact ⟨[], cs, by simp, by simp, h, by simp⟩
  | succ k ih =>
    intro cs h
    cases cs with
    | nil => exact ⟨[], [], by simp, by simp, h, by simp⟩
    | cons c rest =>
      rw [matchComps] at h
      by_cases hc : c = '.'
      · subst hc
        rw [if_pos rfl, Bool.and_eq_true] at h
        obtain ⟨comps, t, hlen, hcomps, ht, heq⟩ := ih _ h.2
        refine ⟨rest.takeWhile isWordChar :: comps, t, by simpa using hlen, ?_, ht, ?_⟩
        · intro x hx
          rcases List.mem_cons.1 hx with hx | hx
          · subst hx
            constructor
            · intro hemp
              rw [hemp] at h
              simp at h
            · exact all_takeWhile isWordChar rest
          · exact hcomps x hx
        · have hsplit : rest = rest.takeWhile isWordChar ++ rest.dropWhile isWordChar :=
            (List.takeWhile_append_dropWhile isWordChar rest).symm
          rw [List.map_cons, List.flatten_cons]
          simp only [List.cons_append, List.append_assoc]
          rw [← heq, ← hsplit]
      · rw [if_neg hc] at h
        exact ⟨[], c :: rest, by simp, by simp, h, by simp⟩

/-! Helper lemmas: string decompositions and the grammar equivalence. -/

theorem compsText_data (comps : List String) :
    (compsText comps).data = (comps.map (fun c => '.' :: c.data)).flatten := by
  induction comps with
  | nil => rfl
  | cons c rest ih =>
    rw [compsText, List.map_cons, List.flatten_cons]
    simp [String.data_append, ih]

theorem tagText_matchTag {tag : String} (h : TagOk tag) :
    matchTag (tagText tag).data = true := by
  rcases h with h | h | h | h <;> subst h <;> decide

theorem matchTag_to_tag {t : List Char} (h : matchTag t = true) :
    ∃ tag : String, TagOk tag ∧ t = (tagText tag).data := by
  rcases matchTag_iff.1 h with h | h | h | h <;> subst h
  · exact ⟨"", Or.inl rfl, rfl⟩
  · exact ⟨"alpha", Or.inr (Or.inl rfl), by decide⟩
  · exact ⟨"beta", Or.inr (Or.inr (Or.inl rfl)), by decide⟩
  · exact ⟨"gamma", Or.inr (Or.inr (Or.inr rfl)), by decide⟩

theorem verStr_data (maj : String) (comps : List String) (tag : String) :
    (verStr maj comps tag).data
      = maj.data ++ ((comps.map (fun c => '.' :: c.data)).flatten ++ (tagText tag).data) := by
  simp [verStr, String.data_append, compsText_data]

theorem check_of_shape {maj : String} {comps : List String} {tag : String}
    (hm : MajOk maj) (hlen : comps.length ≤ 2) (hc : ∀ c ∈ comps, CompOk c) (ht : TagOk tag) :
    check (verStr maj comps tag) = true := by
  have hmap : comps.map (fun c => '.' :: c.data)
      = (comps.map String.data).map (fun c => '.' :: c) := by
    simp [List.map_map]
  have hhead : ∀ y,
      (((comps.map String.data).map (fun c => '.' :: c)).flatten ++ (tagText tag).data).head?
        = some y → Char.isDigit y = false := by
    intro y hy
    rcases head_comps_tag (tagText_matchTag ht) y hy with h | h <;> rw [h] <;> decide
  have hW := takeWhile_all_append Char.isDigit maj.data
    (((comps.map String.data).map (fun c => '.' :: c)).flatten ++ (tagText tag).data)
    hm.2 hhead
  rw [check, verStr_data, hmap, hW.1, hW.2, Bool.and_eq_true]
  constructor
  · simp [List.isEmpty_iff, hm.1]
  · refine matchComps_complete (comps.map String.data) 2 (tagText tag).data
      (by simpa using hlen) ?_ (tagText_matchTag ht)
    intro x hx
    obtain ⟨c, hcm, rfl⟩ := List.mem_map.1 hx
    have := hc c hcm
    exact ⟨this.1, this.2⟩

theorem check_sound {s : String} (h : check s = true) : SpecGrammar s := by
  rw [check, Bool.and_eq_true] at h
  obtain ⟨comps, t, hlen, hcomps, ht, heq⟩ := matchComps_sound 2 _ h.2
  obtain ⟨tag, htag, htagd⟩ := matchTag_to_tag ht
  refine ⟨⟨s.data.takeWhile Char.isDigit⟩, comps.map String.mk, tag, ?_, ?_, ?_, htag, ?_⟩
  · refine ⟨?_, all_takeWhile _ _⟩
    have h1 := h.1
    simp only [Bool.not_eq_true', List.isEmpty_eq_false_iff_exists_mem] at h1
    obtain ⟨x, hx⟩ := h1
    intro hnil
    have hl : s.data.takeWhile Char.isDigit = [] := hnil
    rw [hl] at hx
    exact List.not_mem_nil x hx
  · simpa using hlen
  · intro c hcm
    obtain ⟨x, hx, rfl⟩ := List.mem_map.1 hcm
    exact ⟨(hcomps x hx).1, (hcomps x hx).2⟩
  · apply String.ext
    rw [verStr_data]
    have hmap : (comps.map String.mk).map (fun c => '.' :: c.data)
        = comps.map (fun c => '.' :: c) := by
      simp [List.map_map]
    rw [hmap, ← htagd, ← heq]
    exact (List.takeWhile_append_dropWhile Char.isDigit s.data).symm

theorem check_iff_grammar (s : String) : check s = true ↔ SpecGrammar s :=
  ⟨check_sound, fun ⟨_, _, _, hm, hlen, hc, ht, hs⟩ => hs ▸ check_of_shape hm hlen hc ht⟩

/-! Helper lemmas: decimal rendering and numeric coercion. -/

theorem digitChar_isDigit {k : Nat} (h : k < 10) : (Nat.digitChar k).isDigit = true := by
  interval_cases k <;> decide

theorem digitChar_val {k : Nat} (h : k < 10) : (Nat.digitChar k).toNat - 48 = k := by
  interval_cases k <;> decide

theorem decValue_append_singleton (xs : List Char) (c : Char) :
    decValue (xs ++ [c]) = 10 * decValue xs + (c.toNat - 48) := by
  simp [decValue, List.foldl_append]

theorem natToCharsAux_spec : ∀ fuel n, n ≤ fuel →
    (natToCharsAux fuel n).all Char.isDigit = true ∧ decValue (natToCharsAux fuel n) = n ∧
      (n ≠ 0 → natToCharsAux fuel n ≠ []) := by
  intro fuel
  induction fuel with
  | zero =>
    intro n hn
    have : n = 0 := Nat.le_zero.1 hn
    subst this
    exact ⟨rfl, rfl, fun h => absurd rfl h⟩
  | succ fuel ih =>
    intro n hn
    cases n with
    | zero => exact ⟨rfl, rfl, fun h => absurd rfl h⟩
    | succ m =>
      have hstep : natToCharsAux (fuel + 1) (m + 1)
          = natToCharsAux fuel ((m + 1) / 10) ++ [Nat.digitChar ((m + 1) % 10)] := rfl
      have hdiv : (m + 1) / 10 ≤ fuel := by
        have h1 : (m + 1) / 10 < m + 1 := Nat.div_lt_self (Nat.succ_pos m) (by norm_num)
        omega
      obtain ⟨ha, hv, _⟩ := ih _ hdiv
      have hmod : (m + 1) % 10 < 10 := Nat.mod_lt _ (by norm_num)
      refine ⟨?_, ?_, fun _ => by simp [hstep]⟩
      · rw [hstep, List.all_append, ha]
        simp [digitChar_isDigit hmod]
      · rw [hstep, decValue_append_singleton, hv, digitChar_val hmod]
        exact Nat.div_add_mod (m + 1) 10

theorem natToChars_spec (n : Nat) :
    (natToChars n).all Char.isDigit = true ∧ decValue (natToChars n) = n ∧ natToChars n ≠ [] := by
  by_cases h : n = 0
  · subst h
    exact ⟨rfl, rfl, by decide⟩
  · rw [natToChars, if_neg h]
    obtain ⟨ha, hv, hne⟩ := natToCharsAux_spec n n (Nat.le_refl n)
    exact ⟨ha, hv, hne h⟩

theorem isWordChar_of_isDigit {c : Char} (h : c.isDigit = true) : isWordChar c = true := by
  simp [isWordChar, h]

theorem jsWordToNumber_digits {l : List Char} (ha : l.all Char.isDigit = true) (hne : l ≠ []) :
    jsWordToNumber ⟨l⟩ = .int (decValue l) := by
  have hdec : decimalExpValue l = .int (decValue l) := by
    obtain ⟨ht, hd⟩ := takeWhile_of_all ha
    rw [decimalExpValue]
    simp only [ht, hd]
    rw [if_neg (by simp [List.isEmpty_iff, hne])]
  cases l with
  | nil => exact absurd rfl hne
  | cons c cs =>
    have hcd : c.isDigit = true := by
      rw [List.all_cons, Bool.and_eq_true] at ha
      exact ha.1
    have hs : (⟨c :: cs⟩ : String).data = c :: cs := rfl
    rw [jsWordToNumber]
    simp only [hs]
    rw [if_neg ?hinf]
    case hinf =>
      intro hcontra
      have hI : c = 'I' := (List.cons.injEq .. ▸ hcontra).1
      rw [hI] at hcd
      exact absurd hcd (by decide)
    by_cases hc0 : c = '0'
    · rw [if_pos hc0]
      cases cs with
      | nil => exact hdec
      | cons c2 rest =>
        have hc2 : c2.isDigit = true := by
          rw [List.all_cons, List.all_cons, Bool.and_eq_true, Bool.and_eq_true] at ha
          exact ha.2.1
        have hx : ¬(c2 = 'x' ∨ c2 = 'X') := by
          rintro (h | h) <;> rw [h] at hc2 <;> cases hc2
        have ho : ¬(c2 = 'o' ∨ c2 = 'O') := by
          rintro (h | h) <;> rw [h] at hc2 <;> cases hc2
        have hb : ¬(c2 = 'b' ∨ c2 = 'B') := by
          rintro (h | h) <;> rw [h] at hc2 <;> cases hc2
        show (if c2 = 'x' ∨ c2 = 'X' then radixNum 16 hexDigitVal rest
          else if c2 = 'o' ∨ c2 = 'O' then radixNum 8 octDigitVal rest
          else if c2 = 'b' ∨ c2 = 'B' then radixNum 2 binDigitVal rest
          else decimalExpValue (c :: c2 :: rest)) = JSNum.int (decValue (c :: c2 :: rest))
        rw [if_neg hx, if_neg ho, if_neg hb]
        exact hdec
    · rw [if_neg hc0]
      exact hdec

theorem numFromText_digits {l : List Char} (ha : l.all Char.isDigit = true) (hne : l ≠ []) :
    numFromText ⟨l⟩ = .int (decValue l) := by
  rw [numFromText]
  simp only [jsWordToNumber_digits ha hne]
  by_cases h : 0 < decValue l
  · rw [if_pos (by simpa [JSNum.gtZero] using h)]
  · have : decValue l = 0 := by omega
    rw [this]
    simp [JSNum.gtZero]

theorem numFromText_render_int (n : Nat) : numFromText ((JSNum.int n).render) = .int n := by
  obtain ⟨ha, hv, hne⟩ := natToChars_spec n
  have : (JSNum.int n).render = ⟨natToChars n⟩ := rfl
  rw [this, numFromText_digits ha hne, hv]

theorem numFromText_render_inf : numFromText JSNum.inf.render = .inf := by decide

theorem numFromText_render_nan : numFromText JSNum.nan.render = .int 0 := by decide

theorem numFromText_cases (s : String) :
    (∃ n, numFromText s = .int n) ∨ numFromText s = .inf := by
  rw [numFromText]
  cases h : jsWordToNumber s with
  | nan => exact Or.inl ⟨0, by simp [JSNum.gtZero]⟩
  | inf => exact Or.inr (by simp [JSNum.gtZero])
  | int n =>
    by_cases hp : (JSNum.int n).gtZero = true
    · exact Or.inl ⟨n, by simp [hp]⟩
    · exact Or.inl ⟨0, by simp [hp]⟩

theorem numFromText_tagWord {tag : String} (ht : TagOk tag) (hne : tag ≠ "") :
    numFromText tag = .int 0 := by
  rcases ht with h | h | h | h <;> subst h
  · exact absurd rfl hne
  all_goals decide

/-! Helper lemmas: computing the splits and `parse` on a grammar shape. -/

theorem mk_data (s : String) : String.mk s.data = s := rfl

theorem dash_not_mem {maj : String} {comps : List String}
    (hm : MajOk maj) (hc : ∀ c ∈ comps, CompOk c) :
    '-' ∉ (maj ++ compsText comps).data := by
  rw [String.data_append, compsText_data]
  intro hmem
  rcases List.mem_append.1 hmem with h | h
  · exact not_mem_of_all hm.2 (by decide) h
  · obtain ⟨l, hl, hmeml⟩ := List.mem_flatten.1 h
    obtain ⟨c, hcm, rfl⟩ := List.mem_map.1 hl
    rcases List.mem_cons.1 hmeml with h1 | h1
    · exact absurd h1 (by decide)
    · exact not_mem_of_all (hc c hcm).2 (by decide) h1

theorem dash_not_mem_tag {tag : String} (ht : TagOk tag) : '-' ∉ tag.data := by
  rcases ht with h | h | h | h <;> subst h <;> decide

theorem jsSplit_dash {maj : String} {comps : List String} {tag : String}
    (hm : MajOk maj) (hc : ∀ c ∈ comps, CompOk c) (ht : TagOk tag) :
    jsSplit '-' (verStr maj comps tag)
      = if tag = "" then [maj ++ compsText comps] else [maj ++ compsText comps, tag] := by
  have hnd := dash_not_mem hm hc
  by_cases h0 : tag = ""
  · subst h0
    rw [if_pos rfl]
    have hdata : (verStr maj comps "").data = (maj ++ compsText comps).data := by
      show ((maj ++ compsText comps) ++ tagText "").data = (maj ++ compsText comps).data
      rw [String.data_append, tagText, if_pos rfl]
      simp
    rw [jsSplit, hdata, splitChar_no_sep hnd]
    rfl
  · rw [if_neg h0]
    have hdata : (verStr maj comps tag).data
        = (maj ++ compsText comps).data ++ '-' :: tag.data := by
      show ((maj ++ compsText comps) ++ tagText tag).data
        = (maj ++ compsText comps).data ++ '-' :: tag.data
      rw [String.data_append, tagText, if_neg h0, String.data_append]
      rfl
    rw [jsSplit, hdata, splitChar_append hnd, splitChar_no_sep (dash_not_mem_tag ht)]
    rfl

theorem jsSplit_dot : ∀ (comps : List String) (x : String),
    ('.' ∉ x.data) → (∀ c ∈ comps, '.' ∉ c.data) →
    jsSplit '.' (x ++ compsText comps) = x :: comps := by
  intro comps
  induction comps with
  | nil =>
    intro x hx _
    have hdata : (x ++ compsText []).data = x.data := by
      rw [compsText, String.data_append]
      simp
    rw [jsSplit, hdata, splitChar_no_sep hx]
    rfl
  | cons c rest ih =>
    intro x hx hc
    have hdata : (x ++ compsText (c :: rest)).data
        = x.data ++ '.' :: (c ++ compsText rest).data := by
      rw [compsText]
      simp [String.data_append]
    have hrec := ih c (hc c (List.mem_cons_self c rest)) (fun d hd => hc d (List.mem_cons_of_mem c hd))
    rw [jsSplit] at hrec
    rw [jsSplit, hdata, splitChar_append hx, List.map_cons, hrec, mk_data]

theorem dot_not_mem_maj {maj : String} (hm : MajOk maj) : '.' ∉ maj.data :=
  not_mem_of_all hm.2 (by decide)

theorem dot_not_mem_comp {c : String} (hc : CompOk c) : '.' ∉ c.data :=
  not_mem_of_all hc.2 (by decide)

theorem parse_shape {maj : String} {comps : List String} {tag : String}
    (hm : MajOk maj) (hlen : comps.length ≤ 2) (hc : ∀ c ∈ comps, CompOk c) (ht : TagOk tag) :
    parse (verStr maj comps tag)
      = some ((maj :: comps).map (fun c => JSVal.num (numFromText c)) ++ [JSVal.str tag]) := by
  have hdot := jsSplit_dot comps maj (dot_not_mem_maj hm) (fun c hcm => dot_not_mem_comp (hc c hcm))
  rw [parse, if_pos (check_of_shape hm hlen hc ht), jsSplit_dash hm hc ht]
  by_cases h0 : tag = ""
  · subst h0
    rw [if_pos rfl]
    simp only [List.headD, List.getD, List.get?, Option.getD]
    rw [hdot]
  · rw [if_neg h0]
    simp only [List.headD, List.getD, List.get?, Option.getD]
    rw [hdot]

theorem parse_none {s : String} (h : check s = false) : parse s = none := by
  simp [parse, h]

theorem verTag_shape {maj : String} {comps : List String} {tag : String}
    (hm : MajOk maj) (hc : ∀ c ∈ comps, CompOk c) (ht : TagOk tag) :
    verTag (verStr maj comps tag) = tag := by
  rw [verTag, jsSplit_dash hm hc ht]
  by_cases h0 : tag = ""
  · subst h0
    rw [if_pos rfl]
    rfl
  · rw [if_neg h0]
    rfl

theorem numComps_shape {maj : String} {comps : List String} {tag : String}
    (hm : MajOk maj) (hc : ∀ c ∈ comps, CompOk c) (ht : TagOk tag) :
    numComps (verStr maj comps tag) = comps.length + 1 := by
  have hdot := jsSplit_dot comps maj (dot_not_mem_maj hm) (fun c hcm => dot_not_mem_comp (hc c hcm))
  rw [numComps, jsSplit_dash hm hc ht]
  by_cases h0 : tag = ""
  · rw [if_pos h0]
    simp only [List.headD]
    rw [hdot]
    simp
  · rw [if_neg h0]
    simp only [List.headD]
    rw [hdot]
    simp

theorem verTriple_shape {maj : String} {comps : List String} {tag : String}
    (hm : MajOk maj) (hlen : comps.length ≤ 2) (hc : ∀ c ∈ comps, CompOk c) (ht : TagOk tag) :
    verTriple (verStr maj comps tag)
      = some (numFromText maj, (comps.map numFromText).getD 0 (.int 0),
          (comps.map numFromText).getD 1 (.int 0)) := by
  have hdot := jsSplit_dot comps maj (dot_not_mem_maj hm) (fun c hcm => dot_not_mem_comp (hc c hcm))
  rw [verTriple, if_pos (check_of_shape hm hlen hc ht), jsSplit_dash hm hc ht]
  by_cases h0 : tag = ""
  · rw [if_pos h0]
    simp only [List.headD]
    rw [hdot]
    simp
  · rw [if_neg h0]
    simp only [List.headD]
    rw [hdot]
    simp

/-! Helper lemmas: rendered numbers as grammar components, round trips. -/

theorem all_word_of_all_digit {l : List Char} (h : l.all Char.isDigit = true) :
    l.all isWordChar = true := by
  rw [List.all_eq_true] at h ⊢
  intro c hc
  exact isWordChar_of_isDigit (h c hc)

theorem compOk_render (x : JSNum) : CompOk x.render := by
  cases x with
  | nan => exact ⟨by decide, by decide⟩
  | inf => exact ⟨by decide, by decide⟩
  | int n =>
    obtain ⟨ha, _, hne⟩ := natToChars_spec n
    exact ⟨hne, all_word_of_all_digit ha⟩

theorem majOk_render (n : Nat) : MajOk (JSNum.int n).render := by
  obtain ⟨ha, _, hne⟩ := natToChars_spec n
  exact ⟨hne, ha⟩

theorem two_verStr (x y : String) : x ++ "." ++ y = verStr x [y] "" := by
  apply String.ext
  rw [verStr_data]
  simp [String.data_append, tagText]

theorem three_verStr (x y z : String) : x ++ "." ++ y ++ "." ++ z = verStr x [y, z] "" := by
  apply String.ext
  rw [verStr_data]
  simp [String.data_append, tagText]

theorem renderTriple_verStr (a b c : JSNum) :
    renderTriple (a, b, c) = verStr a.render [b.render, c.render] "" :=
  three_verStr a.render b.render c.render

/-- Numbers that can appear in a numeric triple: `Infinity` or an
integer, never `NaN`. -/
def GoodNum (x : JSNum) : Prop := x = .inf ∨ ∃ n, x = .int n

theorem goodNum_zero : GoodNum (.int 0) := Or.inr ⟨0, rfl⟩

theorem goodNum_numFromText (s : String) : GoodNum (numFromText s) := by
  rcases numFromText_cases s with ⟨n, h⟩ | h
  · exact Or.inr ⟨n, h⟩
  · exact Or.inl h

theorem goodNum_getD (l : List String) (i : Nat) :
    GoodNum ((l.map numFromText).getD i (.int 0)) := by
  rcases h : (l.map numFromText).get? i with _ | v
  · rw [List.getD, h]
    exact goodNum_zero
  · rw [List.getD, h]
    have hv : v ∈ l.map numFromText := List.get?_mem h
    obtain ⟨c, _, rfl⟩ := List.mem_map.1 hv
    exact goodNum_numFromText c

theorem goodNum_inc {x : JSNum} (h : GoodNum x) : GoodNum x.inc := by
  rcases h with rfl | ⟨n, rfl⟩
  · exact Or.inl rfl
  · exact Or.inr ⟨n + 1, rfl⟩

theorem numFromText_render_good {y : JSNum} (h : GoodNum y) : numFromText y.render = y := by
  rcases h with rfl | ⟨n, rfl⟩
  · exact numFromText_render_inf
  · exact numFromText_render_int n

theorem verTriple_render {x y z : JSNum} (hx : ∃ n, x = .int n)
    (hy : GoodNum y) (hz : GoodNum z) :
    verTriple (renderTriple (x, y, z)) = some (x, y, z) := by
  obtain ⟨n, rfl⟩ := hx
  rw [renderTriple_verStr]
  rw [verTriple_shape (majOk_render n) (by simp)
    (by
      intro c hcm
      rcases List.mem_cons.1 hcm with rfl | hcm2
      · exact compOk_render _
      · rcases List.mem_cons.1 hcm2 with rfl | hcm3
        · exact compOk_render _
        · exact absurd hcm3 (List.not_mem_nil c))
    (Or.inl rfl)]
  simp [numFromText_render_int, numFromText_render_good hy, numFromText_render_good hz]

/-! Helper lemmas: evaluating `increase` on each parse shape. -/

theorem joinDot_two (u v : JSVal) : joinDot [u, v] = u.render ++ "." ++ v.render := by
  apply String.ext
  simp [joinDot, String.data_append]

theorem joinDot_three (u v w : JSVal) :
    joinDot [u, v, w] = u.render ++ "." ++ v.render ++ "." ++ w.render := by
  apply String.ext
  simp [joinDot, String.data_append]

theorem increase_patch3 {s : String} {a b c : JSNum} {t : String}
    (h : parse s = some [.num a, .num b, .num c, .str t]) :
    increase s "patch" = some (joinDot [.num a, .num b, .num c.inc]) := by
  simp only [increase, h]
  simp [incIdx, getIdx, setIdx, JSVal.toNumber, List.take]

theorem increase_minor3 {s : String} {a b c : JSNum} {t : String}
    (h : parse s = some [.num a, .num b, .num c, .str t]) :
    increase s "minor" = some (joinDot [.num a, .num b.inc, .num (.int 0)]) := by
  simp only [increase, h]
  simp [incIdx, getIdx, setIdx, JSVal.toNumber, List.take]

theorem increase_major3 {s : String} {a b c : JSNum} {t : String}
    (h : parse s = some [.num a, .num b, .num c, .str t]) :
    increase s "major" = some (joinDot [.num a.inc, .num (.int 0), .num (.int 0)]) := by
  simp only [increase, h]
  simp [incIdx, getIdx, setIdx, JSVal.toNumber, List.take]

theorem increase_patch2 {s : String} {a b : JSNum} {t : String}
    (h : parse s = some [.num a, .num b, .str t]) :
    increase s "patch" = some (joinDot [.num a, .num b, .num (jsWordToNumber t).inc]) := by
  simp only [increase, h]
  simp [incIdx, getIdx, setIdx, JSVal.toNumber, List.take]

theorem increase_minor2 {s : String} {a b : JSNum} {t : String}
    (h : parse s = some [.num a, .num b, .str t]) :
    increase s "minor" = some (joinDot [.num a, .num b.inc, .num (.int 0)]) := by
  simp only [increase, h]
  simp [incIdx, getIdx, setIdx, JSVal.toNumber, List.take]

theorem increase_major2 {s : String} {a b : JSNum} {t : String}
    (h : parse s = some [.num a, .num b, .str t]) :
    increase s "major" = some (joinDot [.num a.inc, .num (.int 0), .num (.int 0)]) := by
  simp only [increase, h]
  simp [incIdx, getIdx, setIdx, JSVal.toNumber, List.take]

theorem increase_patch1 {s : String} {a : JSNum} {t : String}
    (h : parse s = some [.num a, .str t]) :
    increase s "patch" = some (joinDot [.num a, .str t, .num .nan]) := by
  simp only [increase, h]
  simp [incIdx, getIdx, setIdx, JSVal.toNumber, JSNum.inc, List.take]

theorem increase_minor1 {s : String} {a : JSNum} {t : String}
    (h : parse s = some [.num a, .str t]) :
    increase s "minor" = some (joinDot [.num a, .num (jsWordToNumber t).inc, .num (.int 0)]) := by
  simp only [increase, h]
  simp [incIdx, getIdx, setIdx, JSVal.toNumber, List.take]

theorem increase_major1 {s : String} {a : JSNum} {t : String}
    (h : parse s = some [.num a, .str t]) :
    increase s "major" = some (joinDot [.num a.inc, .num (.int 0), .num (.int 0)]) := by
  simp only [increase, h]
  simp [incIdx, getIdx, setIdx, JSVal.toNumber, List.take]

theorem increase_other {s level : String} {arr : List JSVal}
    (h : parse s = some arr)
    (h1 : level ≠ "patch") (h2 : level ≠ "minor") (h3 : level ≠ "major") :
    increase s level = some (joinDot (arr.take 3)) := by
  simp only [increase, h]

/-! Claim theorems. -/

/-- C1: for every string `s`, `check s` is true exactly when `s` matches
the grammar of section 3 of the specification (a digits-only major
component, optionally one or two further `.`-separated components of one
or more word characters, optionally a trailing `-` followed by exactly
one of `alpha`, `beta`, `gamma`); in particular `check` accepts `1`,
`1.2`, `1.2.3`, `1.2.3-beta`, `1.2-alpha` and rejects the empty string,
`v1.2.3`, `1.2.3-rc`, `1..2` and `1.2.3-`. -/
theorem c1_check_iff_grammar :
    (∀ s : String, check s = true ↔ SpecGrammar s) ∧
    check "1" = true ∧ check "1.2" = true ∧ check "1.2.3" = true ∧
    check "1.2.3-beta" = true ∧ check "1.2-alpha" = true ∧
    check "" = false ∧ check "v1.2.3" = false ∧ check "1.2.3-rc" = false ∧
    check "1..2" = false ∧ check "1.2.3-" = false :=
  ⟨check_iff_grammar, by decide, by decide, by decide, by decide, by decide,
    by decide, by decide, by decide, by decide, by decide⟩

/-- C3: `parse s` is `null` exactly when `check s` is false; in the model
`parse` is a total function, so it never throws, and on every string that
passes validation it produces a structured result. -/
theorem c3_parse_null_iff_check_false : ∀ s : String, parse s = none ↔ check s = false := by
  intro s
  cases h : check s with
  | false => simp [parse_none h]
  | true =>
    rw [parse, if_pos h]
    simp

/-- C4 (code bug): the claim, like the JSDoc of `parse`, promises a
4-tuple `(major, minor, patch, tag)` with missing minor and patch
defaulting to 0, so that `parse "1"` would be `(1, 0, 0, "")`; the code
instead returns the two-element array `[1, ""]`, because the coerced
component list is only as long as the components present. -/
theorem c4_parse_one_two_elements :
    parse "1" = some [JSVal.num (.int 1), JSVal.str ""] ∧
    [JSVal.num (JSNum.int 1), JSVal.str ""].length = 2 := by
  exact ⟨by decide, by decide⟩

/-- C9: on every string rejected by `check`, `increase` throws (the parse
result is `null` and `null.slice` raises a `TypeError`, modelled by
`none`); it never returns a default value. -/
theorem c9_increase_throws : ∀ s level : String, check s = false → increase s level = none := by
  intro s level h
  simp only [increase, parse_none h]

/-- Witness for C9 at the concrete invalid input `x`. -/
theorem c9_witness : increase "x" "patch" = none :=
  c9_increase_throws "x" "patch" (by decide)

/-- C10: a valid version string whose minor component is a non-digit word
that JavaScript numeric coercion maps to a positive number keeps that
coerced value: `parse "1.2e3"` has minor component 2000, not 0. -/
theorem c10_exponent_component :
    parse "1.2e3" = some [JSVal.num (.int 1), JSVal.num (.int 2000), JSVal.str ""] ∧
    JSNum.int 2000 ≠ JSNum.int 0 :=
  ⟨by decide, by decide⟩

/-- Counterexample to C2 as stated: the numeric triple of `1` is
`(1, 0, 0)`, so a patch bump would have to return `1.0.1`, but
`increase "1" "patch"` returns `1..NaN` (the missing patch slot reads as
`undefined`, and `undefined++` stores `NaN`). -/
theorem c2_counterexample :
    verTriple "1" = some (.int 1, .int 0, .int 0) ∧
    renderTriple (bumpTriple (.int 1, .int 0, .int 0) "patch") = "1.0.1" ∧
    increase "1" "patch" = some "1..NaN" ∧ ("1..NaN" : String) ≠ "1.0.1" :=
  ⟨by decide, by decide, by decide, by decide⟩

/-- Counterexample to C5 as stated: `1` is valid and `patch` is a
recognized level, but `increase "1" "patch"` is `1..NaN`, which `check`
rejects. -/
theorem c5_counterexample :
    check "1" = true ∧ increase "1" "patch" = some "1..NaN" ∧ check "1..NaN" = false :=
  ⟨by decide, by decide, by decide⟩

/-- Counterexample to C6 as stated: a patch bump of `1.2-beta` stores
`NaN` in the patch slot, so the result `1.2.NaN` has the same numeric
triple `(1, 2, 0)` as the input; and a patch bump of `1.2.Infinity`
leaves the triple `(1, 2, Infinity)` unchanged because
`Infinity + 1 = Infinity`.  Neither result is strictly greater. -/
theorem c6_counterexample :
    (check "1.2-beta" = true ∧ increase "1.2-beta" "patch" = some "1.2.NaN" ∧
      verTriple "1.2-beta" = some (.int 1, .int 2, .int 0) ∧
      verTriple "1.2.NaN" = some (.int 1, .int 2, .int 0) ∧
      lexLt (.int 1, .int 2, .int 0) (.int 1, .int 2, .int 0) = false) ∧
    (check "1.2.Infinity" = true ∧
      increase "1.2.Infinity" "patch" = some "1.2.Infinity" ∧
      verTriple "1.2.Infinity" = some (.int 1, .int 2, .inf) ∧
      lexLt (.int 1, .int 2, .inf) (.int 1, .int 2, .inf) = false) :=
  ⟨⟨by decide, by decide, by decide, by decide, by decide⟩,
    ⟨by decide, by decide, by decide, by decide⟩⟩

/-- Counterexample to C7 as stated: `1.2` is valid with parsed patch 0
(missing, defaulted) and minor 2, so the claim requires heading level 2,
but the function returns 3: the strict equality `versions[2] === 0`
compares the tag slot `""` (a string) with the number 0 and fails. -/
theorem c7_counterexample :
    check "1.2" = true ∧ verTriple "1.2" = some (.int 1, .int 2, .int 0) ∧
    getHeadingLevelFromVersion "1.2" = 3 ∧ (3 : Nat) ≠ 2 :=
  ⟨by decide, by decide, by decide, by decide⟩

/-- Counterexample to C8 as stated: for the valid two-component version
`1.2` and the unrecognized level `foo`, `increase` returns `1.2.`, an
invalid string with no numeric fields at all, rather than a version with
the numeric triple of the input. -/
theorem c8_counterexample :
    check "1.2" = true ∧ increase "1.2" "foo" = some "1.2." ∧
    check "1.2." = false ∧ verTriple "1.2" = some (.int 1, .int 2, .int 0) ∧
    verTriple "1.2." = none :=
  ⟨by decide, by decide, by decide, by decide, by decide⟩

/-- Workhorse for the bump claims: on every valid version and recognized
level outside the failing shapes, `increase` returns the bumped numeric
triple joined with `.`. -/
theorem increase_good {s level : String} (h : check s = true)
    (hlev : level = "patch" ∨ level = "minor" ∨ level = "major")
    (hdom : numComps s = 3 ∨ level = "major" ∨
      (numComps s = 2 ∧ (level = "minor" ∨ verTag s = "")) ∨
      (numComps s = 1 ∧ level = "minor" ∧ verTag s = "")) :
    ∃ t, verTriple s = some t ∧ increase s level = some (renderTriple (bumpTriple t level)) := by
  obtain ⟨maj, comps, tag, hm, hlen, hc, ht, rfl⟩ := check_sound h
  rw [numComps_shape hm hc ht, verTag_shape hm hc ht] at hdom
  have hp := parse_shape hm hlen hc ht
  rw [verTriple_shape hm hlen hc ht]
  refine ⟨_, rfl, ?_⟩
  rcases comps with _ | ⟨c1, _ | ⟨c2, _ | ⟨c3, rest⟩⟩⟩
  · simp only [List.map_cons, List.map_nil, List.cons_append, List.nil_append] at hp
    rcases hlev with rfl | rfl | rfl
    · exfalso
      rcases hdom with h1 | h1 | ⟨h1, _⟩ | ⟨_, h1, _⟩ <;> exact absurd h1 (by decide)
    · rcases hdom with h1 | h1 | ⟨h1, _⟩ | ⟨_, _, rfl⟩
      · exact absurd h1 (by decide)
      · exact absurd h1 (by decide)
      · exact absurd h1 (by decide)
      · rw [increase_minor1 hp, joinDot_three]
        rfl
    · rw [increase_major1 hp, joinDot_three]
      rfl
  · simp only [List.map_cons, List.map_nil, List.cons_append, List.nil_append] at hp
    rcases hlev with rfl | rfl | rfl
    · have htag : tag = "" := by
        rcases hdom with h1 | h1 | ⟨_, h2 | rfl⟩ | ⟨h1, _, _⟩
        · simp at h1
        · exact absurd h1 (by decide)
        · exact absurd h2 (by decide)
        · rfl
        · simp at h1
      subst htag
      rw [increase_patch2 hp, joinDot_three]
      rfl
    · rw [increase_minor2 hp, joinDot_three]
      rfl
    · rw [increase_major2 hp, joinDot_three]
      rfl
  · simp only [List.map_cons, List.map_nil, List.cons_append, List.nil_append] at hp
    rcases hlev with rfl | rfl | rfl
    · rw [increase_patch3 hp, joinDot_three]
      rfl
    · rw [increase_minor3 hp, joinDot_three]
      rfl
    · rw [increase_major3 hp, joinDot_three]
      rfl
  · exfalso
    simp at hlen

/-- C2 (amended): for every valid version `s` and recognized level,
`increase` drops the tag and returns the bumped numeric triple joined
with `.` — provided the bump touches only slots that hold numbers: this
holds when the numeric portion has all three components; for any `s` when
the level is `major`; for two-component versions when the level is
`minor`, or when it is `patch` and there is no tag (an absent patch slot
reads the empty tag string, which coerces to 0); and for one-component
untagged versions when the level is `minor`.  In the remaining shapes
the patch (or minor) slot reads `undefined` or the tag text and the
result contains `NaN` or the tag instead of a bumped number.  The
`safeTriple` guard keeps every coerced component below 2^53, where the
exact bump arithmetic and decimal rendering of the model coincide with
the float64 arithmetic and `String()` of the source; components at or
above 2^53 (which float64 fails to increment, or renders exponentially)
are outside the claim. -/
theorem c2_amended : ∀ s level : String, check s = true →
    (level = "patch" ∨ level = "minor" ∨ level = "major") →
    safeTriple s = true →
    (numComps s = 3 ∨ level = "major" ∨
      (numComps s = 2 ∧ (level = "minor" ∨ verTag s = "")) ∨
      (numComps s = 1 ∧ level = "minor" ∧ verTag s = "")) →
    ∃ t, verTriple s = some t ∧ increase s level = some (renderTriple (bumpTriple t level)) :=
  fun _ _ h hlev _ hdom => increase_good h hlev hdom

/-- Witness for C2 (amended) at the concrete input `1.2.3`, `patch`. -/
theorem c2_witness :
    ∃ t, verTriple "1.2.3" = some t ∧
      increase "1.2.3" "patch" = some (renderTriple (bumpTriple t "patch")) :=
  c2_amended "1.2.3" "patch" (by decide) (Or.inl rfl) (by decide) (Or.inl (by decide))

theorem joinDot_three_num (x y z : JSNum) :
    joinDot [.num x, .num y, .num z] = x.render ++ "." ++ y.render ++ "." ++ z.render :=
  joinDot_three (.num x) (.num y) (.num z)

theorem compOk_tag {tag : String} (ht : TagOk tag) (hne : tag ≠ "") : CompOk tag := by
  rcases ht with rfl | rfl | rfl | rfl
  · exact absurd rfl hne
  all_goals exact ⟨by decide, by decide⟩

theorem check_three_strings {x y z : String} (hx : MajOk x) (hy : CompOk y) (hz : CompOk z) :
    check (x ++ "." ++ y ++ "." ++ z) = true := by
  rw [three_verStr]
  refine check_of_shape hx (by simp) ?_ (Or.inl rfl)
  intro c hcm
  rcases List.mem_cons.1 hcm with rfl | hcm2
  · exact hy
  · rcases List.mem_cons.1 hcm2 with rfl | hcm3
    · exact hz
    · exact absurd hcm3 (List.not_mem_nil c)

theorem check_render_three {a : JSNum} (ha : ∃ n, a = .int n) (y z : JSNum) :
    check (a.render ++ "." ++ y.render ++ "." ++ z.render) = true := by
  obtain ⟨n, rfl⟩ := ha
  exact check_three_strings (majOk_render n) (compOk_render y) (compOk_render z)

theorem numFromText_maj_int {maj : String} (hm : MajOk maj) :
    ∃ n, numFromText maj = .int n :=
  ⟨decValue maj.data, numFromText_digits hm.2 hm.1⟩

/-- C5 (amended): for every valid version `v` and recognized level, the
output of `increase v level` is itself a valid version string — except in
the single failing shape where `v` is a bare major component with no tag
and the level is `patch`, in which case the output `major..NaN` has an
empty middle component and is invalid.  In every other shape each joined
field renders as a non-empty digit or word string (`NaN` and `Infinity`
are word strings), so the result passes `check` and carries no tag.  The
`safeTriple` guard keeps the coerced components below 2^53, where the
source renders every field in plain decimal; above it `String()` can use
exponential notation (for example at 1e21), whose `+` sign fails the
grammar in the source but not in the decimal-only model. -/
theorem c5_amended : ∀ s level : String, check s = true →
    (level = "patch" ∨ level = "minor" ∨ level = "major") →
    safeTriple s = true →
    ¬(numComps s = 1 ∧ verTag s = "" ∧ level = "patch") →
    ∃ r, increase s level = some r ∧ check r = true := by
  intro s level h hlev hsafe hexc
  obtain ⟨maj, comps, tag, hm, hlen, hc, ht, rfl⟩ := check_sound h
  rw [numComps_shape hm hc ht, verTag_shape hm hc ht] at hexc
  have hp := parse_shape hm hlen hc ht
  obtain ⟨dA, hA⟩ := numFromText_maj_int hm
  rcases comps with _ | ⟨c1, _ | ⟨c2, _ | ⟨c3, rest⟩⟩⟩
  · simp only [List.map_cons, List.map_nil, List.cons_append, List.nil_append] at hp
    rcases hlev with rfl | rfl | rfl
    · have htagne : tag ≠ "" := fun h0 => hexc ⟨by simp, h0, rfl⟩
      refine ⟨_, increase_patch1 hp, ?_⟩
      rw [joinDot_three, hA]
      exact check_three_strings (majOk_render dA) (compOk_tag ht htagne) (compOk_render .nan)
    · refine ⟨_, increase_minor1 hp, ?_⟩
      rw [joinDot_three_num, hA]
      exact check_render_three ⟨dA, rfl⟩ _ _
    · refine ⟨_, increase_major1 hp, ?_⟩
      rw [joinDot_three_num, hA]
      exact check_render_three ⟨dA + 1, rfl⟩ _ _
  · simp only [List.map_cons, List.map_nil, List.cons_append, List.nil_append] at hp
    rcases hlev with rfl | rfl | rfl
    · refine ⟨_, increase_patch2 hp, ?_⟩
      rw [joinDot_three_num, hA]
      exact check_render_three ⟨dA, rfl⟩ _ _
    · refine ⟨_, increase_minor2 hp, ?_⟩
      rw [joinDot_three_num, hA]
      exact check_render_three ⟨dA, rfl⟩ _ _
    · refine ⟨_, increase_major2 hp, ?_⟩
      rw [joinDot_three_num, hA]
      exact check_render_three ⟨dA + 1, rfl⟩ _ _
  · simp only [List.map_cons, List.map_nil, List.cons_append, List.nil_append] at hp
    rcases hlev with rfl | rfl | rfl
    · refine ⟨_, increase_patch3 hp, ?_⟩
      rw [joinDot_three_num, hA]
      exact check_render_three ⟨dA, rfl⟩ _ _
    · refine ⟨_, increase_minor3 hp, ?_⟩
      rw [joinDot_three_num, hA]
      exact check_render_three ⟨dA, rfl⟩ _ _
    · refine ⟨_, increase_major3 hp, ?_⟩
      rw [joinDot_three_num, hA]
      exact check_render_three ⟨dA + 1, rfl⟩ _ _
  · exfalso
    simp at hlen

/-- Witness for C5 (amended) at the concrete input `1.2`, `patch`. -/
theorem c5_witness : ∃ r, increase "1.2" "patch" = some r ∧ check r = true :=
  c5_amended "1.2" "patch" (by decide) (Or.inl rfl) (by decide) (by decide)

theorem lexLt_patch (a b : JSNum) (m : Nat) :
    lexLt (a, b, .int m) (a, b, (JSNum.int m).inc) = true := by
  simp [lexLt, jsLt, JSNum.inc, Nat.lt_succ_self]

theorem lexLt_minor (a c z : JSNum) (m : Nat) :
    lexLt (a, .int m, c) (a, (JSNum.int m).inc, z) = true := by
  simp [lexLt, jsLt, JSNum.inc, Nat.lt_succ_self]

theorem lexLt_major (b c y z : JSNum) (m : Nat) :
    lexLt (.int m, b, c) ((JSNum.int m).inc, y, z) = true := by
  simp [lexLt, jsLt, JSNum.inc, Nat.lt_succ_self]

/-- C6 (amended): for every valid version and recognized level, the
numeric triple of the bump output is strictly greater than the numeric
triple of the input in lexicographic order, provided the incremented
field is a finite number slot: for `patch` this requires the patch
coercion not to be `Infinity` and the version to have three components
(or two components and no tag, where the patch slot reads the empty tag
string); for `minor` it requires the minor coercion not to be `Infinity`
and the version not to be a single tagged component (where the minor slot
reads the tag text and `NaN` is stored); `major` always increases, since
the major component is digits-only and finite.  The `safeTriple` guard
keeps the coerced components below 2^53: there the float64 increment of
the source is exact and strictly increasing; at 2^53 and above `x + 1`
can round back to `x` in the source, which the exact model does not
reproduce. -/
theorem c6_amended : ∀ s level : String, check s = true →
    (level = "patch" ∨ level = "minor" ∨ level = "major") →
    safeTriple s = true →
    ∀ a b c : JSNum, verTriple s = some (a, b, c) →
    (level = "patch" → c ≠ .inf ∧ (numComps s = 3 ∨ (numComps s = 2 ∧ verTag s = ""))) →
    (level = "minor" → b ≠ .inf ∧ ¬(numComps s = 1 ∧ verTag s ≠ "")) →
    ∃ r t2, increase s level = some r ∧ verTriple r = some t2 ∧ lexLt (a, b, c) t2 = true := by
  intro s level h hlev hsafe a b c htrip hpat hmin
  obtain ⟨maj, comps, tag, hm, hlen, hc, ht, rfl⟩ := check_sound h
  rw [numComps_shape hm hc ht, verTag_shape hm hc ht] at hpat hmin
  have hp := parse_shape hm hlen hc ht
  rw [verTriple_shape hm hlen hc ht] at htrip
  simp only [Option.some.injEq, Prod.mk.injEq] at htrip
  obtain ⟨h1, h2, h3⟩ := htrip
  subst h1
  subst h2
  subst h3
  obtain ⟨dA, hA⟩ := numFromText_maj_int hm
  rcases comps with _ | ⟨c1, _ | ⟨c2, _ | ⟨c3, rest⟩⟩⟩
  · -- one component
    simp only [List.map_cons, List.map_nil, List.cons_append, List.nil_append] at hp
    simp only [List.map_nil, List.getD_nil]
    rcases hlev with rfl | rfl | rfl
    · exfalso
      rcases (hpat rfl).2 with h1 | ⟨h1, _⟩ <;> exact absurd h1 (by decide)
    · have htag : tag = "" := by
        rcases hmin rfl with ⟨_, hno⟩
        by_contra hne
        exact hno ⟨by decide, hne⟩
      subst htag
      refine ⟨renderTriple (numFromText maj, (JSNum.int 0).inc, .int 0),
        (numFromText maj, (JSNum.int 0).inc, .int 0), ?_, ?_, ?_⟩
      · rw [increase_minor1 hp, joinDot_three_num, hA]
        rfl
      · exact verTriple_render ⟨dA, hA⟩ (Or.inr ⟨1, rfl⟩) goodNum_zero
      · rw [hA]
        exact lexLt_minor _ _ _ 0
    · refine ⟨renderTriple ((numFromText maj).inc, .int 0, .int 0),
        ((numFromText maj).inc, .int 0, .int 0), ?_, ?_, ?_⟩
      · rw [increase_major1 hp, joinDot_three_num, hA]
        rfl
      · exact verTriple_render ⟨dA + 1, by rw [hA]; rfl⟩ goodNum_zero goodNum_zero
      · rw [hA]
        exact lexLt_major _ _ _ _ dA
  · -- two components
    simp only [List.map_cons, List.map_nil, List.cons_append, List.nil_append] at hp
    simp only [List.map_cons, List.map_nil, List.getD_cons_zero, List.getD_cons_succ,
      List.getD_nil]
    rcases hlev with rfl | rfl | rfl
    · have htag : tag = "" := by
        rcases (hpat rfl).2 with h1 | ⟨_, h1⟩
        · simp at h1
        · exact h1
      subst htag
      refine ⟨renderTriple (numFromText maj, numFromText c1, (JSNum.int 0).inc),
        (numFromText maj, numFromText c1, (JSNum.int 0).inc), ?_, ?_, ?_⟩
      · rw [increase_patch2 hp, joinDot_three_num, hA]
        rfl
      · exact verTriple_render ⟨dA, hA⟩ (goodNum_numFromText c1) (Or.inr ⟨1, rfl⟩)
      · rw [hA]
        exact lexLt_patch _ _ 0
    · rcases hmin rfl with ⟨hbne, _⟩
      simp only [List.map_cons, List.map_nil, List.getD_cons_zero] at hbne
      rcases goodNum_numFromText c1 with hbinf | ⟨m, hbm⟩
      · exact absurd hbinf hbne
      · rw [hbm] at hp ⊢
        refine ⟨renderTriple (numFromText maj, (JSNum.int m).inc, .int 0),
          (numFromText maj, (JSNum.int m).inc, .int 0), ?_, ?_, ?_⟩
        · rw [increase_minor2 hp, joinDot_three_num, hA]
          rfl
        · exact verTriple_render ⟨dA, hA⟩ (Or.inr ⟨m + 1, rfl⟩) goodNum_zero
        · rw [hA]
          exact lexLt_minor _ _ _ m
    · refine ⟨renderTriple ((numFromText maj).inc, .int 0, .int 0),
        ((numFromText maj).inc, .int 0, .int 0), ?_, ?_, ?_⟩
      · rw [increase_major2 hp, joinDot_three_num, hA]
        rfl
      · exact verTriple_render ⟨dA + 1, by rw [hA]; rfl⟩ goodNum_zero goodNum_zero
      · rw [hA]
        exact lexLt_major _ _ _ _ dA
  · -- three components
    simp only [List.map_cons, List.map_nil, List.cons_append, List.nil_append] at hp
    simp only [List.map_cons, List.map_nil, List.getD_cons_zero, List.getD_cons_succ,
      List.getD_nil]
    rcases hlev with rfl | rfl | rfl
    · rcases hpat rfl with ⟨hcne, _⟩
      simp only [List.map_cons, List.map_nil, List.getD_cons_succ, List.getD_cons_zero] at hcne
      rcases goodNum_numFromText c2 with hcinf | ⟨m, hcm⟩
      · exact absurd hcinf hcne
      · rw [hcm] at hp ⊢
        refine ⟨renderTriple (numFromText maj, numFromText c1, (JSNum.int m).inc),
          (numFromText maj, numFromText c1, (JSNum.int m).inc), ?_, ?_, ?_⟩
        · rw [increase_patch3 hp, joinDot_three_num, hA]
          rfl
        · exact verTriple_render ⟨dA, hA⟩ (goodNum_numFromText c1) (Or.inr ⟨m + 1, rfl⟩)
        · rw [hA]
          exact lexLt_patch _ _ m
    · rcases hmin rfl with ⟨hbne, _⟩
      simp only [List.map_cons, List.map_nil, List.getD_cons_zero] at hbne
      rcases goodNum_numFromText c1 with hbinf | ⟨m, hbm⟩
      · exact absurd hbinf hbne
      · rw [hbm] at hp ⊢
        refine ⟨renderTriple (numFromText maj, (JSNum.int m).inc, .int 0),
          (numFromText maj, (JSNum.int m).inc, .int 0), ?_, ?_, ?_⟩
        · rw [increase_minor3 hp, joinDot_three_num, hA]
          rfl
        · exact verTriple_render ⟨dA, hA⟩ (Or.inr ⟨m + 1, rfl⟩) goodNum_zero
        · rw [hA]
          exact lexLt_minor _ _ _ m
    · refine ⟨renderTriple ((numFromText maj).inc, .int 0, .int 0),
        ((numFromText maj).inc, .int 0, .int 0), ?_, ?_, ?_⟩
      · rw [increase_major3 hp, joinDot_three_num, hA]
        rfl
      · exact verTriple_render ⟨dA + 1, by rw [hA]; rfl⟩ goodNum_zero goodNum_zero
      · rw [hA]
        exact lexLt_major _ _ _ _ dA
  · exfalso
    simp at hlen

/-- Witness for C6 (amended) at the concrete input `1.2.3`, `patch`. -/
theorem c6_witness :
    ∃ r t2, increase "1.2.3" "patch" = some r ∧ verTriple r = some t2 ∧
      lexLt (.int 1, .int 2, .int 3) t2 = true :=
  c6_amended "1.2.3" "patch" (by decide) (Or.inl rfl) (by decide) (.int 1) (.int 2) (.int 3)
    (by decide) (by decide) (by decide)

theorem strictEqZero_num_iff (x : JSNum) : strictEqZero (.num x) = true ↔ x = .int 0 := by
  cases x with
  | nan => simp [strictEqZero]
  | inf => simp [strictEqZero]
  | int n => simp [strictEqZero]

/-- C7 (amended): `getHeadingLevelFromVersion` returns the sentinel 0 on
every string rejected by `check`; on a valid version whose numeric
portion has all three components it returns 1 when the coerced patch and
minor are both zero, 2 when patch is zero and minor is not, and 3 when
patch is non-zero; on a valid version with fewer than three components it
always returns 3, because the strict equality `versions[2] === 0`
compares the tag string or `undefined` with the number 0 and fails. -/
theorem c7_amended : ∀ s : String, getHeadingLevelFromVersion s = headingSpec s := by
  intro s
  cases h : check s with
  | false =>
    simp [getHeadingLevelFromVersion, parse_none h, headingSpec, verTriple, h]
  | true =>
    obtain ⟨maj, comps, tag, hm, hlen, hc, ht, rfl⟩ := check_sound h
    have hp := parse_shape hm hlen hc ht
    rcases comps with _ | ⟨c1, _ | ⟨c2, _ | ⟨c3, rest⟩⟩⟩
    · simp only [List.map_cons, List.map_nil, List.cons_append, List.nil_append] at hp
      simp [getHeadingLevelFromVersion, hp, getIdx, strictEqZero, headingSpec,
        verTriple_shape hm hlen hc ht, numComps_shape hm hc ht]
    · simp only [List.map_cons, List.map_nil, List.cons_append, List.nil_append] at hp
      simp [getHeadingLevelFromVersion, hp, getIdx, strictEqZero, headingSpec,
        verTriple_shape hm hlen hc ht, numComps_shape hm hc ht]
    · simp only [List.map_cons, List.map_nil, List.cons_append, List.nil_append] at hp
      rcases goodNum_numFromText c2 with hcinf | ⟨m, hcm⟩
      · simp [getHeadingLevelFromVersion, hp, getIdx, strictEqZero, headingSpec,
          verTriple_shape hm hlen hc ht, numComps_shape hm hc ht, hcinf]
      · cases m with
        | zero =>
          rcases goodNum_numFromText c1 with hbinf | ⟨k, hbk⟩
          · simp [getHeadingLevelFromVersion, hp, getIdx, strictEqZero, headingSpec,
              verTriple_shape hm hlen hc ht, numComps_shape hm hc ht, hcm, hbinf]
          · cases k with
            | zero =>
              simp [getHeadingLevelFromVersion, hp, getIdx, strictEqZero, headingSpec,
                verTriple_shape hm hlen hc ht, numComps_shape hm hc ht, hcm, hbk]
            | succ k =>
              simp [getHeadingLevelFromVersion, hp, getIdx, strictEqZero, headingSpec,
                verTriple_shape hm hlen hc ht, numComps_shape hm hc ht, hcm, hbk]
        | succ m =>
          simp [getHeadingLevelFromVersion, hp, getIdx, strictEqZero, headingSpec,
            verTriple_shape hm hlen hc ht, numComps_shape hm hc ht, hcm]
    · exfalso
      simp at hlen

/-- C8 (amended): for every valid version and level outside
`patch`/`minor`/`major`, `increase` raises no error and the numeric
triple of its output equals the numeric triple of the input — provided
the version has all three components or carries a tag; an untagged
version with fewer than three components instead yields an invalid
string with a trailing `.` (see the counterexample).  The `safeTriple`
guard keeps the coerced components below 2^53, where the source renders
each field as the plain decimal numeral that coerces back to the same
value; above it `String()` can render exponentially (for example at
1e21), producing a string the grammar rejects in the source. -/
theorem c8_amended : ∀ s level : String, check s = true →
    level ≠ "patch" → level ≠ "minor" → level ≠ "major" →
    safeTriple s = true →
    (numComps s = 3 ∨ verTag s ≠ "") →
    ∃ r, increase s level = some r ∧ verTriple r = verTriple s := by
  intro s level h h1 h2 h3 hsafe hdom
  obtain ⟨maj, comps, tag, hm, hlen, hc, ht, rfl⟩ := check_sound h
  rw [numComps_shape hm hc ht, verTag_shape hm hc ht] at hdom
  have hp := parse_shape hm hlen hc ht
  obtain ⟨dA, hA⟩ := numFromText_maj_int hm
  have hinc := increase_other hp h1 h2 h3
  rcases comps with _ | ⟨c1, _ | ⟨c2, _ | ⟨c3, rest⟩⟩⟩
  · have htag : tag ≠ "" := by
      rcases hdom with hx | hx
      · simp at hx
      · exact hx
    simp only [List.map_cons, List.map_nil, List.cons_append, List.nil_append] at hp hinc
    refine ⟨_, hinc, ?_⟩
    have htake : List.take 3 [JSVal.num (numFromText maj), JSVal.str tag]
        = [JSVal.num (numFromText maj), JSVal.str tag] := rfl
    rw [htake, joinDot_two]
    simp only [JSVal.render]
    rw [hA, two_verStr]
    rw [verTriple_shape (majOk_render dA) (by simp)
      (by
        intro c hcm
        rcases List.mem_cons.1 hcm with rfl | hcm2
        · exact compOk_tag ht htag
        · exact absurd hcm2 (List.not_mem_nil c))
      (Or.inl rfl)]
    rw [verTriple_shape hm hlen hc ht]
    simp [numFromText_render_int, numFromText_tagWord ht htag, hA]
  · have htag : tag ≠ "" := by
      rcases hdom with hx | hx
      · simp at hx
      · exact hx
    simp only [List.map_cons, List.map_nil, List.cons_append, List.nil_append] at hp hinc
    refine ⟨_, hinc, ?_⟩
    have htake : List.take 3 [JSVal.num (numFromText maj), JSVal.num (numFromText c1), JSVal.str tag]
        = [JSVal.num (numFromText maj), JSVal.num (numFromText c1), JSVal.str tag] := rfl
    rw [htake, joinDot_three]
    simp only [JSVal.render]
    rw [hA, three_verStr]
    rw [verTriple_shape (majOk_render dA) (by simp)
      (by
        intro c hcm
        rcases List.mem_cons.1 hcm with rfl | hcm2
        · exact compOk_render _
        · rcases List.mem_cons.1 hcm2 with rfl | hcm3
          · exact compOk_tag ht htag
          · exact absurd hcm3 (List.not_mem_nil c))
      (Or.inl rfl)]
    rw [verTriple_shape hm hlen hc ht]
    simp [numFromText_render_int, numFromText_tagWord ht htag, hA,
      numFromText_render_good (goodNum_numFromText c1)]
  · simp only [List.map_cons, List.map_nil, List.cons_append, List.nil_append] at hp hinc
    refine ⟨_, hinc, ?_⟩
    have htake : List.take 3 [JSVal.num (numFromText maj), JSVal.num (numFromText c1),
        JSVal.num (numFromText c2), JSVal.str tag]
        = [JSVal.num (numFromText maj), JSVal.num (numFromText c1), JSVal.num (numFromText c2)] := rfl
    rw [htake, joinDot_three_num]
    rw [hA, three_verStr]
    rw [verTriple_shape (majOk_render dA) (by simp)
      (by
        intro c hcm
        rcases List.mem_cons.1 hcm with rfl | hcm2
        · exact compOk_render _
        · rcases List.mem_cons.1 hcm2 with rfl | hcm3
          · exact compOk_render _
          · exact absurd hcm3 (List.not_mem_nil c))
      (Or.inl rfl)]
    rw [verTriple_shape hm hlen hc ht]
    simp [numFromText_render_int, hA,
      numFromText_render_good (goodNum_numFromText c1),
      numFromText_render_good (goodNum_numFromText c2)]
  · exfalso
    simp at hlen

/-- Witness for C8 (amended) at the concrete input `1.2.3`, `foo`. -/
theorem c8_witness :
    ∃ r, increase "1.2.3" "foo" = some r ∧ verTriple r = verTriple "1.2.3" :=
  c8_amended "1.2.3" "foo" (by decide) (by decide) (by decide) (by decide) (by decide)
    (Or.inl (by decide))

end Version
